import Mathlib

/-!
Verification of the SSA-form IR core (`ppci/ir.py`).

The Python classes are shallowly embedded as follows.  Every Python object
(Instruction, Value, Block) has a stable identity; we model identities as
natural numbers.  The mutable object graph is a record of finitely many
fields, each a function from identity to that object's field content.
Python sets become duplicate-free lists in insertion order (Python set
iteration order is arbitrary; insertion order is the canonical choice
here), Python dicts become association lists preserving insertion order,
and Python lists become plain lists.  Fallible Python code (an `assert`
failure, a `KeyError` from `set.remove` / `dict.pop`, a `ValueError`
from `list.remove` / `list.index`, an `AttributeError` from a `None`
dereference) is modelled by returning `none`; a returned `some`
corresponds to a Python call that ran to completion.
-/

namespace PpciIR

/-- Association-list lookup mirroring Python `d[k]` read for a dict whose
insertion order is the list order: the first matching key wins. -/
def alookup {κ : Type} [DecidableEq κ] : List (κ × Nat) → κ → Option Nat
  | [], _ => none
  | e :: l, k => if e.1 = k then some e.2 else alookup l k

/-- Association-list write mirroring Python `d[k] = v`: overwrite in place
when the key is present, append at the end otherwise. -/
def aset {κ : Type} [DecidableEq κ] : List (κ × Nat) → κ → Nat → List (κ × Nat)
  | [], k, v => [(k, v)]
  | e :: l, k, v => if e.1 = k then (k, v) :: l else e :: aset l k v

/-- Association-list removal mirroring Python `d.pop(k)` (key removal). -/
def aerase {κ : Type} [DecidableEq κ] : List (κ × Nat) → κ → List (κ × Nat)
  | [], _ => []
  | e :: l, k => if e.1 = k then l else e :: aerase l k

/-- The keys of an association list, in insertion order (Python `d.keys()`). -/
def akeys {κ : Type} (l : List (κ × Nat)) : List κ := l.map Prod.fst

/-- The values of an association list, in insertion order (Python `d.values()`). -/
def avalues {κ : Type} (l : List (κ × Nat)) : List Nat := l.map Prod.snd

/-- Python `set.add`: a no-op when the element is present, otherwise the
element joins the set (at the end in our insertion-ordered model). -/
def sadd (x : Nat) (l : List Nat) : List Nat := if x ∈ l then l else l ++ [x]

/-- The exact Python classes of the instruction objects that the embedded
operations dispatch on (`type(x) is ...` / `isinstance` checks):
`valueK` is a generic `Value`-producing instruction with `var_map` slots
(Const, Binop, Load, ...), `phiK` is `Phi`, `globalK` is `Variable`,
`paramK` is `Parameter`, `termK` is any `LastStatement`
(Terminator/Return/Jump/CJump), `instrK` is a non-Value instruction
such as `Store`. -/
inductive IKind
  | valueK
  | phiK
  | globalK
  | paramK
  | termK
  | instrK
deriving DecidableEq

/-- The mutable object graph of `ppci/ir.py`, one field per Python
attribute that the verified operations read or write:
`uses` is `Instruction.uses` (a Python set of Values),
`usedBy` is `Value.used_by` (a Python set of Instructions),
`varMap` is `Instruction.var_map` (dict role-name to Value),
`inputs` is `Phi.inputs` (dict Block to Value),
`parent` is `Instruction.parent` (the containing Block or None),
`blockInstrs` is `Block.instructions` (the ordered instruction list),
`blockMap` is `LastStatement.block_map` (dict role-name to Block),
`preds` is `Block._preds` (a Python set of terminator instructions),
`extraSuccs` is `Block.extra_successors`. -/
structure IR where
  kind : Nat → IKind
  uses : Nat → List Nat
  usedBy : Nat → List Nat
  varMap : Nat → List (String × Nat)
  inputs : Nat → List (Nat × Nat)
  parent : Nat → Option Nat
  blockInstrs : Nat → List Nat
  blockMap : Nat → List (String × Nat)
  preds : Nat → List Nat
  extraSuccs : Nat → List Nat

/-- An object graph with no objects constructed yet: every field map is
empty, so every identity denotes a freshly constructed object. -/
def initIR : IR where
  kind := fun _ => IKind.valueK
  uses := fun _ => []
  usedBy := fun _ => []
  varMap := fun _ => []
  inputs := fun _ => []
  parent := fun _ => none
  blockInstrs := fun _ => []
  blockMap := fun _ => []
  preds := fun _ => []
  extraSuccs := fun _ => []

/-- `Instruction.add_use(v)`: `self.uses.add(v); v.add_user(self)`.
Python `set.add` is idempotent and never fails, so this is total. -/
def pAddUse (i v : Nat) (s : IR) : IR :=
  { s with
    uses := Function.update s.uses i (sadd v (s.uses i))
    usedBy := Function.update s.usedBy v (sadd i (s.usedBy v)) }

/-- `Instruction.del_use(v)`: `self.uses.remove(v); v.del_user(self)`.
Python `set.remove` raises `KeyError` when the element is absent, on
either side; that is modelled as `none`. -/
def pDelUse (i v : Nat) (s : IR) : Option IR :=
  if v ∈ s.uses i ∧ i ∈ s.usedBy v then
    some { s with
      uses := Function.update s.uses i ((s.uses i).erase v)
      usedBy := Function.update s.usedBy v ((s.usedBy v).erase i) }
  else none

/-- Write one slot of `Instruction.var_map` (`self.var_map[name] = value`). -/
def setVarMapEntry (i : Nat) (name : String) (v : Nat) (s : IR) : IR :=
  { s with varMap := Function.update s.varMap i (aset (s.varMap i) name v) }

/-- Write one slot of `Phi.inputs` (`self.inputs[block] = value`). -/
def setInputEntry (p b v : Nat) (s : IR) : IR :=
  { s with inputs := Function.update s.inputs p (aset (s.inputs p) b v) }

/-- One iteration of the loop in `Instruction.replace_use`: for key `k`,
if the current `var_map[k]` is `old` then `del_use(old)`,
`var_map[k] = new`, `add_use(new)`, in that order. -/
def ruStep (i old new : Nat) (s : IR) (k : String) : Option IR :=
  if alookup (s.varMap i) k = some old then
    (pDelUse i old s).map fun s1 => pAddUse i new (setVarMapEntry i k new s1)
  else some s

/-- `Instruction.replace_use(old, new)` (the generic `var_map` version):
assert `old in self.var_map.values()`, then loop over the keys rebinding
every role currently mapped to `old`. -/
def replaceUsePlain (i old new : Nat) (s : IR) : Option IR :=
  if old ∈ avalues (s.varMap i) then
    (akeys (s.varMap i)).foldlM (fun st k => ruStep i old new st k) s
  else none

/-- One iteration of the loop in `Phi.replace_use`, same shape as
`ruStep` but over `Phi.inputs` (keys are blocks). -/
def ruPhiStep (i old new : Nat) (s : IR) (k : Nat) : Option IR :=
  if alookup (s.inputs i) k = some old then
    (pDelUse i old s).map fun s1 => pAddUse i new (setInputEntry i k new s1)
  else some s

/-- `Phi.replace_use(old, new)`: assert `old in self.inputs.values()`,
then loop over the incoming blocks rebinding every entry mapped to `old`. -/
def replaceUsePhi (i old new : Nat) (s : IR) : Option IR :=
  if old ∈ avalues (s.inputs i) then
    (akeys (s.inputs i)).foldlM (fun st k => ruPhiStep i old new st k) s
  else none

/-- Virtual dispatch of `replace_use`: `Phi` overrides the generic
`Instruction.replace_use`; every other verified kind inherits it. -/
def replaceUse (i old new : Nat) (s : IR) : Option IR :=
  match s.kind i with
  | IKind.phiK => replaceUsePhi i old new s
  | _ => replaceUsePlain i old new s

/-- `Phi.set_incoming(block, value)`: if the block already has an entry,
`del_use` its old value first; then write the entry and `add_use` the
new value. -/
def setIncoming (p b v : Nat) (s : IR) : Option IR :=
  match alookup (s.inputs p) b with
  | some oldv => (pDelUse p oldv s).map fun s1 => pAddUse p v (setInputEntry p b v s1)
  | none => some (pAddUse p v (setInputEntry p b v s))

/-- `Phi.del_incoming(block)`: `value = self.inputs.pop(block)` (raises
when absent), then `del_use(value)`. -/
def delIncoming (p b : Nat) (s : IR) : Option IR :=
  match alookup (s.inputs p) b with
  | some v =>
      pDelUse p v { s with inputs := Function.update s.inputs p (aerase (s.inputs p) b) }
  | none => none

/-- `Value.replace_by(value)`: iterate a snapshot of `self.used_by`
(Python `list(self.used_by)`) calling `use.replace_use(self, value)`. -/
def replaceBy (v new : Nat) (s : IR) : Option IR :=
  (s.usedBy v).foldlM (fun st i => replaceUse i v new st) s

/-- `Instruction.remove_from_block()`: `del_use` every element of a
snapshot of `self.uses` (Python `list(self.uses)`), then
`self.block.remove_instruction(self)` — which sets `parent` to `None`
and removes the instruction from the block's instruction list; it fails
when the instruction has no block or is not in the list. -/
def removeFromBlock (i : Nat) (s : IR) : Option IR :=
  match (s.uses i).foldlM (fun st v => pDelUse i v st) s with
  | none => none
  | some s1 =>
    match s1.parent i with
    | some b =>
        if i ∈ s1.blockInstrs b then
          some { s1 with
            parent := Function.update s1.parent i none
            blockInstrs := Function.update s1.blockInstrs b ((s1.blockInstrs b).erase i) }
        else none
    | none => none

/-- The def-use mutation operations named by the spec: `add_use`,
`del_use`, `replace_use`, `set_incoming`, `del_incoming`, `replace_by`,
`remove_from_block`. -/
inductive DUOp
  | addUse (i v : Nat)
  | delUse (i v : Nat)
  | repUse (i old new : Nat)
  | setInc (p b v : Nat)
  | delInc (p b : Nat)
  | repBy (v new : Nat)
  | rmFromBlock (i : Nat)

/-- Run one def-use mutation operation. -/
def stepDU : DUOp → IR → Option IR
  | DUOp.addUse i v, s => some (pAddUse i v s)
  | DUOp.delUse i v, s => pDelUse i v s
  | DUOp.repUse i old new, s => replaceUse i old new s
  | DUOp.setInc p b v, s => setIncoming p b v s
  | DUOp.delInc p b, s => delIncoming p b s
  | DUOp.repBy v new, s => replaceBy v new s
  | DUOp.rmFromBlock i, s => removeFromBlock i s

/-- Run a sequence of def-use mutation operations; a raised Python
exception aborts the sequence. -/
def runDU : List DUOp → IR → Option IR
  | [], s => some s
  | op :: ops, s =>
    match stepDU op s with
    | some s1 => runDU ops s1
    | none => none

/-- The def-use representation invariant: `uses` and `usedBy` are
genuine sets (no duplicate elements) and are bidirectionally consistent:
a Value `v` is in an Instruction's `uses` exactly when that Instruction
is in `v.used_by`. -/
def Inv (s : IR) : Prop :=
  (∀ v i, v ∈ s.uses i ↔ i ∈ s.usedBy v) ∧
  (∀ i, (s.uses i).Nodup) ∧ (∀ v, (s.usedBy v).Nodup)

/-- `Value.use_count`: `len(self.used_by)`. -/
def useCount (s : IR) (v : Nat) : Nat := (s.usedBy v).length

theorem sadd_mem {x a : Nat} {l : List Nat} : a ∈ sadd x l ↔ a = x ∨ a ∈ l := by
  unfold sadd
  split
  · rename_i hx
    constructor
    · exact Or.inr
    · rintro (rfl | hm)
      · exact hx
      · exact hm
  · simp [List.mem_append, or_comm]

theorem sadd_nodup {x : Nat} {l : List Nat} (h : l.Nodup) : (sadd x l).Nodup := by
  unfold sadd
  split
  · exact h
  · rename_i hx
    rw [List.nodup_append]
    exact ⟨h, List.nodup_singleton x, by simp [List.disjoint_right]; intro hm; exact hx hm⟩

theorem inv_of_eq {s s' : IR} (h : Inv s) (hu : s'.uses = s.uses)
    (hb : s'.usedBy = s.usedBy) : Inv s' := by
  refine ⟨?_, ?_, ?_⟩
  · intro v i
    rw [hu, hb]
    exact h.1 v i
  · intro i
    rw [hu]
    exact h.2.1 i
  · intro v
    rw [hb]
    exact h.2.2 v

theorem pAddUse_inv {s : IR} (h : Inv s) (i v : Nat) : Inv (pAddUse i v s) := by
  refine ⟨?_, ?_, ?_⟩
  · intro a b
    simp only [pAddUse, Function.update_apply]
    by_cases hb : b = i <;> by_cases ha : a = v <;>
      simp [hb, ha, sadd_mem, h.1 a b, h.1 a i, h.1 v b]
  · intro b
    simp only [pAddUse, Function.update_apply]
    by_cases hb : b = i <;> simp [hb, sadd_nodup (h.2.1 i), h.2.1 b]
  · intro a
    simp only [pAddUse, Function.update_apply]
    by_cases ha : a = v <;> simp [ha, sadd_nodup (h.2.2 v), h.2.2 a]

theorem pDelUse_inv {i v : Nat} {s s' : IR} (h : Inv s)
    (hd : pDelUse i v s = some s') : Inv s' := by
  unfold pDelUse at hd
  split at hd
  · injection hd with hd
    subst hd
    refine ⟨?_, ?_, ?_⟩
    · intro a b
      simp only [Function.update_apply]
      by_cases hb : b = i <;> by_cases ha : a = v <;>
        simp [hb, ha, List.Nodup.mem_erase_iff (h.2.1 i), List.Nodup.mem_erase_iff (h.2.2 v),
          h.1 a b, h.1 a i, h.1 v b]
    · intro b
      simp only [Function.update_apply]
      by_cases hb : b = i <;> simp [hb, (h.2.1 i).erase v, h.2.1 b]
    · intro a
      simp only [Function.update_apply]
      by_cases ha : a = v <;> simp [ha, (h.2.2 v).erase i, h.2.2 a]
  · exact Option.noConfusion hd

theorem foldlM_inv {α : Type} {f : IR → α → Option IR}
    (hf : ∀ s a s', Inv s → f s a = some s' → Inv s') :
    ∀ (l : List α) (s s' : IR), Inv s → l.foldlM f s = some s' → Inv s'
  | [], s, s', h, hr => by
      simp only [List.foldlM_nil] at hr
      injection hr with hr
      rwa [← hr]
  | a :: l, s, s', h, hr => by
      rw [List.foldlM_cons] at hr
      cases hfa : f s a with
      | none => rw [hfa] at hr; exact Option.noConfusion hr
      | some s1 =>
          rw [hfa] at hr
          exact foldlM_inv hf l s1 s' (hf s a s1 h hfa) hr

theorem ruStep_inv {i old new : Nat} {k : String} {s s' : IR} (h : Inv s)
    (hr : ruStep i old new s k = some s') : Inv s' := by
  unfold ruStep at hr
  split at hr
  · cases hd : pDelUse i old s with
    | none => rw [hd] at hr; exact Option.noConfusion hr
    | some s1 =>
        rw [hd] at hr
        simp only [Option.map_some'] at hr
        injection hr with hr
        rw [← hr]
        exact pAddUse_inv (inv_of_eq (pDelUse_inv h hd) rfl rfl) i new
  · injection hr with hr
    rwa [← hr]

theorem ruPhiStep_inv {i old new k : Nat} {s s' : IR} (h : Inv s)
    (hr : ruPhiStep i old new s k = some s') : Inv s' := by
  unfold ruPhiStep at hr
  split at hr
  · cases hd : pDelUse i old s with
    | none => rw [hd] at hr; exact Option.noConfusion hr
    | some s1 =>
        rw [hd] at hr
        simp only [Option.map_some'] at hr
        injection hr with hr
        rw [← hr]
        exact pAddUse_inv (inv_of_eq (pDelUse_inv h hd) rfl rfl) i new
  · injection hr with hr
    rwa [← hr]

theorem replaceUse_inv {i old new : Nat} {s s' : IR} (h : Inv s)
    (hr : replaceUse i old new s = some s') : Inv s' := by
  unfold replaceUse at hr
  split at hr
  all_goals {
    first
    | { unfold replaceUsePhi at hr
        split at hr
        · exact foldlM_inv (fun t a t' ht hfa => ruPhiStep_inv ht hfa) _ s s' h hr
        · exact Option.noConfusion hr }
    | { unfold replaceUsePlain at hr
        split at hr
        · exact foldlM_inv (fun t a t' ht hfa => ruStep_inv ht hfa) _ s s' h hr
        · exact Option.noConfusion hr }
  }

theorem setIncoming_inv {p b v : Nat} {s s' : IR} (h : Inv s)
    (hr : setIncoming p b v s = some s') : Inv s' := by
  unfold setIncoming at hr
  split at hr
  · rename_i oldv heq
    cases hd : pDelUse p oldv s with
    | none => rw [hd] at hr; exact Option.noConfusion hr
    | some s1 =>
        rw [hd] at hr
        simp only [Option.map_some'] at hr
        injection hr with hr
        rw [← hr]
        exact pAddUse_inv (inv_of_eq (pDelUse_inv h hd) rfl rfl) p v
  · injection hr with hr
    rw [← hr]
    exact pAddUse_inv (inv_of_eq h rfl rfl) p v

theorem delIncoming_inv {p b : Nat} {s s' : IR} (h : Inv s)
    (hr : delIncoming p b s = some s') : Inv s' := by
  unfold delIncoming at hr
  split at hr
  · have h2 : Inv { s with inputs := Function.update s.inputs p (aerase (s.inputs p) b) } :=
      inv_of_eq h rfl rfl
    exact pDelUse_inv h2 hr
  · exact Option.noConfusion hr

theorem replaceBy_inv {v new : Nat} {s s' : IR} (h : Inv s)
    (hr : replaceBy v new s = some s') : Inv s' :=
  foldlM_inv (fun t a t' ht hfa => replaceUse_inv ht hfa) _ s s' h hr

theorem removeFromBlock_inv {i : Nat} {s s' : IR} (h : Inv s)
    (hr : removeFromBlock i s = some s') : Inv s' := by
  unfold removeFromBlock at hr
  split at hr
  · exact Option.noConfusion hr
  · rename_i s1 hf
    have h1 : Inv s1 := foldlM_inv (fun t a t' ht hfa => pDelUse_inv ht hfa) _ s s1 h hf
    split at hr
    · split at hr
      · injection hr with hr
        rw [← hr]
        exact inv_of_eq h1 rfl rfl
      · exact Option.noConfusion hr
    · exact Option.noConfusion hr

theorem stepDU_inv {op : DUOp} {s s' : IR} (h : Inv s)
    (hr : stepDU op s = some s') : Inv s' := by
  cases op with
  | addUse i v =>
      injection hr with hr
      rw [← hr]
      exact pAddUse_inv h i v
  | delUse i v => exact pDelUse_inv h hr
  | repUse i old new => exact replaceUse_inv h hr
  | setInc p b v => exact setIncoming_inv h hr
  | delInc p b => exact delIncoming_inv h hr
  | repBy v new => exact replaceBy_inv h hr
  | rmFromBlock i => exact removeFromBlock_inv h hr

theorem runDU_inv : ∀ (ops : List DUOp) (s s' : IR), Inv s →
    runDU ops s = some s' → Inv s'
  | [], s, s', h, hr => by
      injection hr with hr
      rwa [← hr]
  | op :: ops, s, s', h, hr => by
      unfold runDU at hr
      cases hst : stepDU op s with
      | none => rw [hst] at hr; exact Option.noConfusion hr
      | some s1 =>
          rw [hst] at hr
          exact runDU_inv ops s1 s' (stepDU_inv h hst) hr

/-- C1: for every Value `v`, after every successfully completed sequence
of the def-use mutation operations (`add_use`, `del_use`, `replace_use`,
`set_incoming`, `del_incoming`, `replace_by`, `remove_from_block`), `v`
is in `i.uses` iff `i` is in `v.used_by`; consequently `v.use_count`
(the size of `v.used_by`) equals the number of Instructions `i` with
`v ∈ i.uses`, counted over any finite collection of instruction
identities containing all of `v`'s users. -/
theorem defuse_bidirectional_consistency (ops : List DUOp) (s s' : IR)
    (h : Inv s) (hr : runDU ops s = some s') :
    (∀ v i, v ∈ s'.uses i ↔ i ∈ s'.usedBy v) ∧
    (∀ (v : Nat) (t : Finset Nat), (∀ i ∈ s'.usedBy v, i ∈ t) →
      (t.filter fun i => v ∈ s'.uses i).card = useCount s' v) := by
  have hinv : Inv s' := runDU_inv ops s s' h hr
  refine ⟨hinv.1, ?_⟩
  intro v t ht
  have hfe : (t.filter fun i => v ∈ s'.uses i) = (s'.usedBy v).toFinset := by
    ext i
    simp only [Finset.mem_filter, List.mem_toFinset]
    constructor
    · rintro ⟨hm, hu⟩
      exact (hinv.1 v i).mp hu
    · intro hb
      exact ⟨ht i hb, (hinv.1 v i).mpr hb⟩
  rw [hfe]
  exact List.toFinset_card_of_nodup (hinv.2.2 v)

/-- A sample mutation sequence: instruction 1 starts using value 0, phi 2
gains and loses an incoming value 0 for block 5, then instruction 1
stops using value 0. -/
def c1ops : List DUOp :=
  [DUOp.addUse 1 0, DUOp.setInc 2 5 0, DUOp.delInc 2 5, DUOp.delUse 1 0]

/-- The state reached by `c1ops` from the empty object graph. -/
def c1res : IR := (runDU c1ops initIR).getD initIR

theorem defuse_bidirectional_consistency_witness :
    (∀ v i, v ∈ c1res.uses i ↔ i ∈ c1res.usedBy v) ∧
    (∀ (v : Nat) (t : Finset Nat), (∀ i ∈ c1res.usedBy v, i ∈ t) →
      (t.filter fun i => v ∈ c1res.uses i).card = useCount c1res v) :=
  defuse_bidirectional_consistency c1ops initIR c1res
    (by refine ⟨?_, ?_, ?_⟩ <;> simp [initIR]) rfl

/-- A freshly constructed instruction object: `Instruction.__init__` and
`Value.__init__` initialise `var_map = {}`, `uses = set()`,
`used_by = set()`, `parent = None` (and `Phi.__init__` adds
`inputs = {}`). -/
def resetInstr (i : Nat) (k : IKind) (s : IR) : IR :=
  { s with
    kind := Function.update s.kind i k
    uses := Function.update s.uses i []
    usedBy := Function.update s.usedBy i []
    varMap := Function.update s.varMap i []
    inputs := Function.update s.inputs i []
    parent := Function.update s.parent i none }

/-- The `var_use` property setter: if the role name is already bound,
`del_use` the old value first; then bind the role in `var_map` and
`add_use` the new value. -/
def setOperand (i : Nat) (name : String) (v : Nat) (s : IR) : Option IR :=
  match alookup (s.varMap i) name with
  | some oldv => (pDelUse i oldv s).map fun s1 => pAddUse i v (setVarMapEntry i name v s1)
  | none => some (pAddUse i v (setVarMapEntry i name v s))

/-- `Binop(a, operation, b, name, ty)`: construct a fresh Value `i` and
run the two `var_use` setters `self.a = a` then `self.b = b`. -/
def newBinop (i a b : Nat) (s : IR) : Option IR :=
  match setOperand i "a" a (resetInstr i IKind.valueK s) with
  | some s1 => setOperand i "b" b s1
  | none => none

/-- `Const(value, name, ty)`: construct a fresh Value with no uses (the
literal payload, name and type play no role in the def-use graph). -/
def newConst (i : Nat) (s : IR) : IR := resetInstr i IKind.valueK s

/-- The state after `c0 = Const(5, "c0", i32)` (identity 0), then
`Binop(c0, '+', c0, "c1", i32)` (identity 1). -/
def c2mid : IR := (newBinop 1 0 0 (newConst 0 initIR)).getD initIR

/-- `c2mid` extended with `Const(7, "c2", i32)` (identity 2). -/
def c2after : IR := newConst 2 c2mid

/-- C2 counterexample: after `Const(5, "c0", i32)` and
`Binop(c0, '+', c0, "c1", i32)`, `c0.use_count` is 1, not 2 as claimed:
`used_by` is a Python set of user instructions, so the single Binop
counts once even though it uses `c0` in both operand roles.  Moreover
`c0.replace_by(Const(7, "c2", i32))` does not complete: rebinding role
`a` deletes the only tracked use of `c0`, and the `del_use` for role `b`
then raises `KeyError`. -/
theorem binop_duplicate_operand_counterexample :
    useCount c2after 0 = 1 ∧ useCount c2after 0 ≠ 2 ∧
    replaceBy 0 2 c2after = none :=
  ⟨by decide, by decide, rfl⟩

/-- C2 amended: the Binop construction succeeds and records both operand
roles `a` and `b` as `c0`; `c0.use_count` is 1 (the Binop is a single
user instruction in the `used_by` set); and `c0.replace_by(c2)` fails
with an error instead of completing, because after the first operand
role is rebound the duplicate `del_use` of `c0` raises. -/
theorem binop_duplicate_operand_scenario :
    (newBinop 1 0 0 (newConst 0 initIR)).isSome = true ∧
    c2mid.varMap 1 = [("a", 0), ("b", 0)] ∧
    useCount c2mid 0 = 1 ∧
    replaceBy 0 2 c2after = none :=
  ⟨by decide, by decide, by decide, rfl⟩

/-- A state in which instruction 1 already uses value 0, bidirectionally
recorded. -/
def c9state : IR := pAddUse 1 0 initIR

/-- C9 counterexample: with value 0 already tracked as used by
instruction 1, a second `add_use` succeeds (Python `set.add` is
idempotent) and leaves the use set unchanged — duplicate registration
does not fail as the claim states. -/
theorem add_use_duplicate_succeeds_counterexample :
    (stepDU (DUOp.addUse 1 0) c9state).isSome = true ∧
    ((stepDU (DUOp.addUse 1 0) c9state).getD initIR).uses 1 = c9state.uses 1 :=
  ⟨by decide, by decide⟩

/-- C9 amended: on a consistent state, `add_use` never fails —
registering an already-tracked value is a silent no-op — while
`del_use(v)` fails exactly when `v` is not currently tracked as used by
the instruction. -/
theorem add_use_idempotent_del_use_guard (s : IR) (h : Inv s) (i v : Nat) :
    (stepDU (DUOp.addUse i v) s).isSome = true ∧
    (v ∈ s.uses i → ((stepDU (DUOp.addUse i v) s).getD s).uses i = s.uses i) ∧
    (stepDU (DUOp.delUse i v) s = none ↔ v ∉ s.uses i) := by
  refine ⟨rfl, ?_, ?_⟩
  · intro hm
    show (pAddUse i v s).uses i = s.uses i
    simp [pAddUse, sadd, hm]
  · show pDelUse i v s = none ↔ v ∉ s.uses i
    unfold pDelUse
    by_cases hm : v ∈ s.uses i
    · simp [hm, (h.1 v i).mp hm]
    · simp [hm]

theorem add_use_idempotent_del_use_guard_witness :
    (stepDU (DUOp.addUse 3 4) initIR).isSome = true ∧
    ((4 : Nat) ∈ initIR.uses 3 →
      ((stepDU (DUOp.addUse 3 4) initIR).getD initIR).uses 3 = initIR.uses 3) ∧
    (stepDU (DUOp.delUse 3 4) initIR = none ↔ (4 : Nat) ∉ initIR.uses 3) :=
  add_use_idempotent_del_use_guard initIR (by refine ⟨?_, ?_, ?_⟩ <;> simp [initIR]) 3 4

theorem pDelUse_eq {i v : Nat} {s s' : IR} (hd : pDelUse i v s = some s') :
    s'.uses = Function.update s.uses i ((s.uses i).erase v) ∧
    s'.usedBy = Function.update s.usedBy v ((s.usedBy v).erase i) := by
  unfold pDelUse at hd
  split at hd
  · injection hd with hd
    rw [← hd]
    exact ⟨rfl, rfl⟩
  · exact Option.noConfusion hd

theorem delUses_usedBy_mono (i : Nat) :
    ∀ (l : List Nat) (s s' : IR),
      l.foldlM (fun st v => pDelUse i v st) s = some s' →
      ∀ x j, j ∈ s'.usedBy x → j ∈ s.usedBy x
  | [], s, s', hr => by
      injection hr with hr
      rw [← hr]
      exact fun x j hj => hj
  | v :: l, s, s', hr => by
      rw [List.foldlM_cons] at hr
      cases hd : pDelUse i v s with
      | none => rw [hd] at hr; exact Option.noConfusion hr
      | some s1 =>
          rw [hd] at hr
          intro x j hj
          have h1 := delUses_usedBy_mono i l s1 s' hr x j hj
          rw [(pDelUse_eq hd).2] at h1
          rw [Function.update_apply] at h1
          split at h1
          · rename_i hx
            rw [hx]
            exact List.mem_of_mem_erase h1
          · exact h1

/-- Erasing, one by one, every element of a list from that same list
leaves the empty list. -/
theorem foldl_erase_self : ∀ l : List Nat, List.foldl List.erase l l = []
  | [] => rfl
  | a :: t => by
      show List.foldl List.erase ((a :: t).erase a) t = []
      rw [List.erase_cons_head]
      exact foldl_erase_self t

theorem delUses_spec (i : Nat) :
    ∀ (l : List Nat) (s s' : IR), Inv s →
      l.foldlM (fun st v => pDelUse i v st) s = some s' →
      s'.uses i = List.foldl List.erase (s.uses i) l ∧
      ∀ v ∈ l, i ∉ s'.usedBy v
  | [], s, s', h, hr => by
      injection hr with hr
      rw [← hr]
      exact ⟨rfl, by simp⟩
  | v :: l, s, s', h, hr => by
      rw [List.foldlM_cons] at hr
      cases hd : pDelUse i v s with
      | none => rw [hd] at hr; exact Option.noConfusion hr
      | some s1 =>
          rw [hd] at hr
          have h1 : Inv s1 := pDelUse_inv h hd
          have ih := delUses_spec i l s1 s' h1 hr
          have he := pDelUse_eq hd
          refine ⟨?_, ?_⟩
          · rw [ih.1, he.1, Function.update_same]
            rfl
          · intro w hw
            rcases List.mem_cons.mp hw with hww | hww
            · subst hww
              intro hmem
              have h2 := delUses_usedBy_mono i l s1 s' hr w i hmem
              rw [he.2, Function.update_same] at h2
              exact (List.Nodup.mem_erase_iff (h.2.2 w)).mp h2 |>.1 rfl
            · exact ih.2 w hww

/-- C6: removing an Instruction `i` from its Block
(`Instruction.remove_from_block`) leaves `i.uses` empty and removes `i`
from the `used_by` set of every Value that `i` previously used. -/
theorem remove_from_block_clears_uses (s s' : IR) (i : Nat) (h : Inv s)
    (hr : removeFromBlock i s = some s') :
    s'.uses i = [] ∧ ∀ v ∈ s.uses i, i ∉ s'.usedBy v := by
  unfold removeFromBlock at hr
  split at hr
  · exact Option.noConfusion hr
  · rename_i s1 hf
    have hspec := delUses_spec i (s.uses i) s s1 h hf
    have hempty : s1.uses i = [] := by
      rw [hspec.1]
      exact foldl_erase_self (s.uses i)
    have hs' : s'.uses = s1.uses ∧ s'.usedBy = s1.usedBy := by
      split at hr
      · split at hr
        · injection hr with hr
          rw [← hr]
          exact ⟨rfl, rfl⟩
        · exact Option.noConfusion hr
      · exact Option.noConfusion hr
    refine ⟨?_, ?_⟩
    · rw [hs'.1]
      exact hempty
    · intro v hv
      rw [hs'.2]
      exact hspec.2 v hv

/-- A concrete configuration for exercising `remove_from_block`:
instruction 9 (a Binop-like value) lives in block 6 and uses values 7
and 8. -/
def c6state : IR :=
  { initIR with
    uses := Function.update initIR.uses 9 [7, 8]
    usedBy := fun v => if v = 7 then [9] else if v = 8 then [9] else []
    parent := Function.update initIR.parent 9 (some 6)
    blockInstrs := Function.update initIR.blockInstrs 6 [9] }

theorem remove_from_block_clears_uses_witness :
    ((removeFromBlock 9 c6state).getD initIR).uses 9 = [] ∧
    ∀ v ∈ c6state.uses 9, (9 : Nat) ∉ ((removeFromBlock 9 c6state).getD initIR).usedBy v :=
  remove_from_block_clears_uses c6state ((removeFromBlock 9 c6state).getD initIR) 9
    (by
      refine ⟨?_, ?_, ?_⟩
      · intro v i
        by_cases h7 : v = 7 <;> by_cases h8 : v = 8 <;> by_cases hi : i = 9 <;>
          simp [c6state, initIR, Function.update_apply, h7, h8, hi]
      · intro i
        by_cases hi : i = 9 <;> simp [c6state, initIR, Function.update_apply, hi]
      · intro v
        by_cases h7 : v = 7 <;> by_cases h8 : v = 8 <;>
          simp [c6state, initIR, h7, h8])
    rfl

theorem alookup_eq_none {κ : Type} [DecidableEq κ] :
    ∀ {l : List (κ × Nat)} {k : κ}, alookup l k = none ↔ k ∉ akeys l
  | [], k => by simp [alookup, akeys]
  | e :: l, k => by
      unfold alookup
      by_cases he : e.1 = k
      · rw [if_pos he]
        subst he
        simp [akeys]
      · rw [if_neg he]
        rw [alookup_eq_none]
        show k ∉ akeys l ↔ k ∉ akeys (e :: l)
        have hcons : akeys (e :: l) = e.1 :: akeys l := rfl
        rw [hcons]
        simp only [List.mem_cons, not_or]
        constructor
        · intro hnm
          exact ⟨fun hh => he hh.symm, hnm⟩
        · intro hnm
          exact hnm.2

theorem aerase_of_not_mem {κ : Type} [DecidableEq κ] :
    ∀ {l : List (κ × Nat)} {k : κ}, k ∉ akeys l → aerase l k = l
  | [], k, _ => rfl
  | e :: l, k, h => by
      unfold aerase
      have hcons : akeys (e :: l) = e.1 :: akeys l := rfl
      rw [hcons] at h
      simp only [List.mem_cons, not_or] at h
      rw [if_neg (fun hh => h.1 hh.symm)]
      rw [aerase_of_not_mem h.2]

theorem lookup_mem_avalues {κ : Type} [DecidableEq κ] :
    ∀ {l : List (κ × Nat)} {k : κ} {v : Nat}, alookup l k = some v → v ∈ avalues l
  | [], k, v, h => Option.noConfusion h
  | e :: l, k, v, h => by
      unfold alookup at h
      split at h
      · injection h with h
        simp [avalues, h]
      · have := lookup_mem_avalues h
        simp [avalues] at this ⊢
        exact Or.inr this

theorem mem_avalues_aset {κ : Type} [DecidableEq κ] :
    ∀ {l : List (κ × Nat)}, (akeys l).Nodup → ∀ {k : κ} {b c : Nat},
      (c ∈ avalues (aset l k b) ↔ c = b ∨ c ∈ avalues (aerase l k))
  | [], _, k, b, c => by simp [aset, aerase, avalues]
  | e :: l, hn, k, b, c => by
      have hn2 : (akeys l).Nodup := (List.nodup_cons.mp hn).2
      unfold aset aerase
      by_cases he : e.1 = k
      · rw [if_pos he, if_pos he]
        simp [avalues]
      · rw [if_neg he, if_neg he]
        have ih := mem_avalues_aset hn2 (k := k) (b := b) (c := c)
        simp only [avalues, List.map_cons, List.mem_cons] at ih ⊢
        rw [ih]
        tauto

theorem mem_avalues_of_lookup {κ : Type} [DecidableEq κ] :
    ∀ {l : List (κ × Nat)}, (akeys l).Nodup → ∀ {k : κ} {v : Nat},
      alookup l k = some v →
      ∀ c, (c ∈ avalues l ↔ c = v ∨ c ∈ avalues (aerase l k))
  | [], _, k, v, h, c => Option.noConfusion h
  | e :: l, hn, k, v, h, c => by
      have hn2 : (akeys l).Nodup := (List.nodup_cons.mp hn).2
      unfold alookup at h
      unfold aerase
      by_cases he : e.1 = k
      · rw [if_pos he] at h
        injection h with h
        rw [if_pos he]
        simp [avalues, h]
      · rw [if_neg he] at h
        rw [if_neg he]
        have ih := mem_avalues_of_lookup hn2 h c
        simp only [avalues, List.map_cons, List.mem_cons] at ih ⊢
        rw [ih]
        tauto

/-- Back-edge consistency for terminator `t`: a block records `t` among
its predecessor instructions (`_preds`) exactly when `t`\'s target map
(`block_map`) names it. -/
def ConsT (t : Nat) (s : IR) : Prop :=
  ∀ b, t ∈ s.preds b ↔ b ∈ avalues (s.blockMap t)

/-- `LastStatement.set_target_block(name, block)`: when the role name is
already mapped, remove `self` from the old target\'s `_preds` (Python
`set.remove`, raising when the terminator is absent); then map the role
to the new block and add `self` to the new target\'s `_preds`. -/
def setTargetBlock (t : Nat) (name : String) (b : Nat) (s : IR) : Option IR :=
  match alookup (s.blockMap t) name with
  | some old =>
      if t ∈ s.preds old then
        some { s with
          blockMap := Function.update s.blockMap t (aset (s.blockMap t) name b)
          preds := Function.update (Function.update s.preds old ((s.preds old).erase t)) b
            (sadd t ((Function.update s.preds old ((s.preds old).erase t)) b)) }
      else none
  | none =>
      some { s with
        blockMap := Function.update s.blockMap t (aset (s.blockMap t) name b)
        preds := Function.update s.preds b (sadd t (s.preds b)) }

/-- One `popitem` iteration of `LastStatement.delete`: remove `self`
from the popped target\'s `_preds` (Python `set.remove`, raising when
absent). -/
def delPopStep (t : Nat) (s : IR) (e : String × Nat) : Option IR :=
  if t ∈ s.preds e.2 then
    some { s with preds := Function.update s.preds e.2 ((s.preds e.2).erase t) }
  else none

/-- `LastStatement.delete()`: `popitem` until `block_map` is empty
(Python pops the most recently inserted entry first, so the entries are
processed in reverse insertion order), removing the back-edge of each
popped target; the map ends empty.  No loop iteration reads the map, so
clearing it at the end is observably identical to popping one entry per
iteration. -/
def deleteTerm (t : Nat) (s : IR) : Option IR :=
  match (s.blockMap t).reverse.foldlM (delPopStep t) s with
  | none => none
  | some s1 => some { s1 with blockMap := Function.update s1.blockMap t [] }

/-- `LastStatement.change_target(old, new)`: for each role name mapped
to `old` (checking the current map, which the loop mutates), call
`set_target_block(name, new)`. -/
def changeTarget (t old new : Nat) (s : IR) : Option IR :=
  (akeys (s.blockMap t)).foldlM
    (fun st k =>
      if alookup (st.blockMap t) k = some old then setTargetBlock t k new st else some st) s

/-- A Jump instruction (identity 0) in block 2 targeting block 1, with
the back-edge recorded. -/
def c3jump : IR :=
  { initIR with
    kind := Function.update initIR.kind 0 IKind.termK
    blockMap := Function.update initIR.blockMap 0 [("target", 1)]
    preds := Function.update initIR.preds 1 [0]
    parent := Function.update initIR.parent 0 (some 2)
    blockInstrs := Function.update initIR.blockInstrs 2 [0] }

/-- A CJump instruction (identity 3) whose `lab_yes` and `lab_no` both
target block 4, with the back-edge recorded (once — `_preds` is a set). -/
def c3cjump : IR :=
  { initIR with
    kind := Function.update initIR.kind 3 IKind.termK
    blockMap := Function.update initIR.blockMap 3 [("lab_yes", 4), ("lab_no", 4)]
    preds := Function.update initIR.preds 4 [3] }

/-- C3 counterexample.  First part: removing the Jump from its block via
`remove_from_block` (which calls `Block.remove_instruction`, where the
`i.delete()` call is commented out) leaves the Jump\'s target map intact
and leaves the Jump in block 1\'s predecessor-instruction set — nothing
is cleared, contrary to the claim.  Second part: overwriting the
`lab_yes` entry of a CJump whose two role names both map block 4 removes
the CJump from block 4\'s predecessor set even though `lab_no` still maps
block 4 — the map and the back-edges are left inconsistent. -/
theorem terminator_edges_counterexample :
    (removeFromBlock 0 c3jump).isSome = true ∧
    ((removeFromBlock 0 c3jump).getD initIR).blockMap 0 = [("target", 1)] ∧
    (0 : Nat) ∈ ((removeFromBlock 0 c3jump).getD initIR).preds 1 ∧
    (setTargetBlock 3 "lab_yes" 5 c3cjump).isSome = true ∧
    (3 : Nat) ∉ ((setTargetBlock 3 "lab_yes" 5 c3cjump).getD initIR).preds 4 ∧
    (4 : Nat) ∈ avalues (((setTargetBlock 3 "lab_yes" 5 c3cjump).getD initIR).blockMap 3) := by
  decide

theorem setTargetBlock_consistent (t : Nat) (name : String) (b : Nat) (s : IR)
    (h : ConsT t s) (hk : (akeys (s.blockMap t)).Nodup)
    (hp : ∀ c, (s.preds c).Nodup)
    (hdup : ∀ old, alookup (s.blockMap t) name = some old →
      old ∉ avalues (aerase (s.blockMap t) name)) :
    ∃ s', setTargetBlock t name b s = some s' ∧ ConsT t s' ∧
      ∀ c, (s'.preds c).Nodup := by
  unfold setTargetBlock
  cases hl : alookup (s.blockMap t) name with
  | none =>
      simp only [hl]
      refine ⟨_, rfl, ?_, ?_⟩
      · intro c
        show t ∈ Function.update s.preds b (sadd t (s.preds b)) c ↔
          c ∈ avalues (Function.update s.blockMap t (aset (s.blockMap t) name b) t)
        rw [Function.update_same, Function.update_apply]
        rw [mem_avalues_aset hk]
        rw [aerase_of_not_mem (alookup_eq_none.mp hl)]
        by_cases hc : c = b
        · rw [if_pos hc]
          simp [sadd_mem, hc]
        · rw [if_neg hc]
          rw [h c]
          simp [hc]
      · intro c
        show ((Function.update s.preds b (sadd t (s.preds b))) c).Nodup
        rw [Function.update_apply]
        by_cases hc : c = b
        · rw [if_pos hc]
          exact sadd_nodup (hp b)
        · rw [if_neg hc]
          exact hp c
  | some old =>
      have holdv : old ∈ avalues (s.blockMap t) := lookup_mem_avalues hl
      have hold : t ∈ s.preds old := (h old).mpr holdv
      simp only [hl]
      rw [if_pos hold]
      refine ⟨_, rfl, ?_, ?_⟩
      · intro c
        show t ∈ Function.update (Function.update s.preds old ((s.preds old).erase t)) b
            (sadd t ((Function.update s.preds old ((s.preds old).erase t)) b)) c ↔
          c ∈ avalues (Function.update s.blockMap t (aset (s.blockMap t) name b) t)
        rw [Function.update_same]
        rw [mem_avalues_aset hk]
        rw [Function.update_apply]
        by_cases hc : c = b
        · rw [if_pos hc]
          simp [sadd_mem, hc]
        · rw [if_neg hc]
          rw [Function.update_apply]
          by_cases hco : c = old
          · rw [if_pos hco]
            constructor
            · intro hmem
              exact absurd rfl ((List.Nodup.mem_erase_iff (hp old)).mp hmem).1
            · rintro (hmem | hmem)
              · exact absurd hmem hc
              · rw [hco] at hmem
                exact absurd hmem (hdup old hl)
          · rw [if_neg hco]
            rw [h c]
            rw [mem_avalues_of_lookup hk hl c]
            simp [hc, hco]
      · intro c
        show ((Function.update (Function.update s.preds old ((s.preds old).erase t)) b
            (sadd t ((Function.update s.preds old ((s.preds old).erase t)) b))) c).Nodup
        rw [Function.update_apply]
        by_cases hc : c = b
        · rw [if_pos hc]
          apply sadd_nodup
          rw [Function.update_apply]
          by_cases hbo : b = old
          · rw [if_pos hbo]
            exact (hp old).erase t
          · rw [if_neg hbo]
            exact hp b
        · rw [if_neg hc]
          rw [Function.update_apply]
          by_cases hco : c = old
          · rw [if_pos hco]
            exact (hp old).erase t
          · rw [if_neg hco]
            exact hp c

theorem delPop_loop (t : Nat) :
    ∀ (m : List (String × Nat)) (s : IR),
      (∀ c, t ∈ s.preds c ↔ c ∈ avalues m) →
      (avalues m).Nodup →
      (∀ c, (s.preds c).Nodup) →
      ∃ s', m.foldlM (delPopStep t) s = some s' ∧
        (∀ c, t ∉ s'.preds c) ∧ s'.blockMap = s.blockMap ∧
        ∀ c, (s'.preds c).Nodup
  | [], s, h, hn, hp =>
      ⟨s, rfl, fun c hc => by simpa [avalues] using (h c).mp hc, rfl, hp⟩
  | e :: m, s, h, hn, hp => by
      have hmem : t ∈ s.preds e.2 := (h e.2).mpr (by simp [avalues])
      have hcons : avalues (e :: m) = e.2 :: avalues m := rfl
      rw [hcons] at hn
      have hn2 : (avalues m).Nodup := (List.nodup_cons.mp hn).2
      have hnotin : e.2 ∉ avalues m := (List.nodup_cons.mp hn).1
      have h2 : ∀ c, t ∈
          ({ s with preds := Function.update s.preds e.2 ((s.preds e.2).erase t) } : IR).preds c ↔
          c ∈ avalues m := by
        intro c
        show t ∈ (Function.update s.preds e.2 ((s.preds e.2).erase t)) c ↔ c ∈ avalues m
        rw [Function.update_apply]
        by_cases hc : c = e.2
        · rw [if_pos hc]
          constructor
          · intro hmm
            exact absurd rfl ((List.Nodup.mem_erase_iff (hp e.2)).mp hmm).1
          · intro hmm
            rw [hc] at hmm
            exact absurd hmm hnotin
        · rw [if_neg hc]
          rw [h c, hcons]
          simp [hc]
      have hp2 : ∀ c,
          (({ s with preds := Function.update s.preds e.2 ((s.preds e.2).erase t) } : IR).preds c).Nodup := by
        intro c
        show ((Function.update s.preds e.2 ((s.preds e.2).erase t)) c).Nodup
        rw [Function.update_apply]
        by_cases hc : c = e.2
        · rw [if_pos hc]
          exact (hp e.2).erase t
        · rw [if_neg hc]
          exact hp c
      obtain ⟨s', hfold, hno, hbm, hpn⟩ := delPop_loop t m
        { s with preds := Function.update s.preds e.2 ((s.preds e.2).erase t) } h2 hn2 hp2
      refine ⟨s', ?_, hno, hbm, hpn⟩
      rw [List.foldlM_cons]
      have hstep : delPopStep t s e =
          some { s with preds := Function.update s.preds e.2 ((s.preds e.2).erase t) } := by
        unfold delPopStep
        rw [if_pos hmem]
      rw [hstep]
      exact hfold

theorem deleteTerm_clears (t : Nat) (s : IR) (h : ConsT t s)
    (hv : (avalues (s.blockMap t)).Nodup) (hp : ∀ c, (s.preds c).Nodup) :
    ∃ s', deleteTerm t s = some s' ∧ s'.blockMap t = [] ∧ ∀ c, t ∉ s'.preds c := by
  have hrev : avalues ((s.blockMap t).reverse) = (avalues (s.blockMap t)).reverse := by
    unfold avalues
    rw [List.map_reverse]
  have h2 : ∀ c, t ∈ s.preds c ↔ c ∈ avalues ((s.blockMap t).reverse) := by
    intro c
    rw [h c, hrev]
    exact (List.mem_reverse).symm
  have hv2 : (avalues ((s.blockMap t).reverse)).Nodup := by
    rw [hrev]
    exact (List.nodup_reverse).mpr hv
  obtain ⟨s1, hfold, hno, hbm, hpn⟩ := delPop_loop t ((s.blockMap t).reverse) s h2 hv2 hp
  refine ⟨{ s1 with blockMap := Function.update s1.blockMap t [] }, ?_, ?_, hno⟩
  · unfold deleteTerm
    rw [hfold]
  · show Function.update s1.blockMap t [] t = []
    rw [Function.update_same]

/-- C3 amended: `set_target_block` keeps the role-map and the targets\'
predecessor-instruction sets consistent provided the overwritten old
target (if any) is not also mapped under another role name; and the
mapped targets and their back-edges are cleared by the terminator\'s
explicit `delete()` — which `remove_from_block` does not invoke —
provided the mapped targets are pairwise distinct.  (With a duplicated
target, overwriting breaks consistency and `delete()` raises, and plain
instruction removal clears nothing; see the counterexample.) -/
theorem terminator_target_edge_consistency :
    (∀ (t : Nat) (name : String) (b : Nat) (s : IR), ConsT t s →
      (akeys (s.blockMap t)).Nodup → (∀ c, (s.preds c).Nodup) →
      (∀ old, alookup (s.blockMap t) name = some old →
        old ∉ avalues (aerase (s.blockMap t) name)) →
      ∃ s', setTargetBlock t name b s = some s' ∧ ConsT t s' ∧
        ∀ c, (s'.preds c).Nodup) ∧
    (∀ (t : Nat) (s : IR), ConsT t s → (avalues (s.blockMap t)).Nodup →
      (∀ c, (s.preds c).Nodup) →
      ∃ s', deleteTerm t s = some s' ∧ s'.blockMap t = [] ∧ ∀ c, t ∉ s'.preds c) :=
  ⟨fun t name b s h hk hp hdup => setTargetBlock_consistent t name b s h hk hp hdup,
   fun t s h hv hp => deleteTerm_clears t s h hv hp⟩

theorem terminator_target_edge_consistency_witness :
    (∃ s', setTargetBlock 0 "target" 1 initIR = some s' ∧ ConsT 0 s' ∧
      ∀ c, (s'.preds c).Nodup) ∧
    (∃ s', deleteTerm 3 c3jump = some s' ∧ s'.blockMap 3 = [] ∧
      ∀ c, (3 : Nat) ∉ s'.preds c) :=
  ⟨terminator_target_edge_consistency.1 0 "target" 1 initIR
      (fun b => by simp [initIR, avalues])
      (by simp [initIR, akeys])
      (fun c => by simp [initIR])
      (fun old hold => by simp [initIR, alookup] at hold),
   terminator_target_edge_consistency.2 3 c3jump
      (fun b => by
        by_cases hb : b = 1 <;>
          simp [c3jump, initIR, avalues, Function.update_apply, hb])
      (by simp [c3jump, initIR, avalues])
      (fun c => by
        by_cases hc : c = 1 <;>
          simp [c3jump, initIR, Function.update_apply, hc])⟩

/-- `Block.add_instruction(i)`: asserts that the block\'s last
instruction is not a `LastStatement` (failing otherwise), then appends
`i` to the instruction list with the block as `i`\'s parent.  (The
`unique_name` renaming side effect for Values touches only the
Function\'s naming table, which is modelled separately by `NameState`.) -/
def addInstruction (b i : Nat) (s : IR) : Option IR :=
  match (s.blockInstrs b).getLast? with
  | some li =>
      if s.kind li = IKind.termK then none
      else
        some { s with
          parent := Function.update s.parent i (some b)
          blockInstrs := Function.update s.blockInstrs b (s.blockInstrs b ++ [i]) }
  | none =>
      some { s with
        parent := Function.update s.parent i (some b)
        blockInstrs := Function.update s.blockInstrs b (s.blockInstrs b ++ [i]) }

/-- A block in which no instruction other than the last one is a
terminator. -/
def TermOnlyLast (s : IR) (b : Nat) : Prop :=
  ∀ j ∈ (s.blockInstrs b).dropLast, s.kind j ≠ IKind.termK

/-- C7: at most the last Instruction of a Block may be a Terminator:
appending via `add_instruction` to a block whose last instruction is a
`LastStatement` fails, and a successful append preserves the property
that no non-final instruction is a terminator. -/
theorem add_instruction_after_terminator (s : IR) (b i : Nat) :
    (∀ li, (s.blockInstrs b).getLast? = some li → s.kind li = IKind.termK →
      addInstruction b i s = none) ∧
    (∀ s', addInstruction b i s = some s' → TermOnlyLast s b →
      TermOnlyLast s' b) := by
  constructor
  · intro li hlast hterm
    unfold addInstruction
    simp only [hlast]
    rw [if_pos hterm]
  · intro s' hr htol
    have hinstrs : s'.blockInstrs b = s.blockInstrs b ++ [i] ∧ s'.kind = s.kind := by
      unfold addInstruction at hr
      split at hr
      · split at hr
        · exact Option.noConfusion hr
        · injection hr with hr
          rw [← hr]
          exact ⟨Function.update_same b _ _, rfl⟩
      · injection hr with hr
        rw [← hr]
        exact ⟨Function.update_same b _ _, rfl⟩
    intro j hj
    rw [hinstrs.1] at hj
    rw [List.dropLast_concat] at hj
    rw [hinstrs.2]
    rcases hle : (s.blockInstrs b).getLast? with _ | li
    · rw [List.getLast?_eq_none_iff] at hle
      rw [hle] at hj
      exact absurd hj (List.not_mem_nil j)
    · have hne : s.blockInstrs b ≠ [] := by
        intro hh
        rw [hh] at hle
        exact Option.noConfusion hle
      have hsplit : s.blockInstrs b = (s.blockInstrs b).dropLast ++ [li] := by
        have h1 := List.dropLast_append_getLast hne
        have h2 : (s.blockInstrs b).getLast hne = li := by
          have h3 := List.getLast?_eq_getLast (s.blockInstrs b) hne
          rw [h3] at hle
          injection hle
        rw [h2] at h1
        exact h1.symm
      rw [hsplit] at hj
      rcases List.mem_append.mp hj with hj | hj
      · exact htol j hj
      · have hji : j = li := List.mem_singleton.mp hj
        subst hji
        -- the append succeeded, so the old last instruction is not a terminator
        unfold addInstruction at hr
        simp only [hle] at hr
        split at hr
        · exact Option.noConfusion hr
        · rename_i hterm
          exact hterm

/-- A block (identity 0) already ended by a terminator instruction
(identity 5). -/
def c7state : IR :=
  { initIR with
    kind := Function.update initIR.kind 5 IKind.termK
    blockInstrs := Function.update initIR.blockInstrs 0 [5]
    parent := Function.update initIR.parent 5 (some 0) }

theorem add_instruction_after_terminator_witness :
    addInstruction 0 6 c7state = none ∧
    TermOnlyLast ((addInstruction 1 6 c7state).getD initIR) 1 :=
  ⟨(add_instruction_after_terminator c7state 0 6).1 5 (by decide) (by decide),
   (add_instruction_after_terminator c7state 1 6).2
     ((addInstruction 1 6 c7state).getD initIR) rfl
     (fun j hj => by simp [c7state, initIR] at hj)⟩

/-- `LastStatement.Targets`: `list(self.block_map.values())`. -/
def targets (s : IR) (t : Nat) : List Nat := avalues (s.blockMap t)

/-- `Block.get_successors`: the last instruction\'s `Targets` plus
`extra_successors`; just `extra_successors` when the block is empty.
Reading `.Targets` on a last instruction that is not a `LastStatement`
raises `AttributeError`, modelled as `none`. -/
def blockSuccs (s : IR) (b : Nat) : Option (List Nat) :=
  match (s.blockInstrs b).getLast? with
  | some li =>
      if s.kind li = IKind.termK then some (targets s li ++ s.extraSuccs b)
      else none
  | none => some (s.extraSuccs b)

/-- The worklist loop of `Function.get_blocks`: `worklist.pop()` takes
the most recently appended block; each successor not yet in the visited
list `bbs` is appended to both `bbs` and the worklist.  The recursion is
bounded by explicit fuel (the Python loop terminates because only
unvisited blocks are ever enqueued). -/
def walkBlocks (s : IR) : Nat → List Nat → List Nat → Option (List Nat)
  | 0, bbs, wl => if wl.isEmpty then some bbs else none
  | fuel + 1, bbs, wl =>
    match wl.getLast? with
    | none => some bbs
    | some b =>
      match blockSuccs s b with
      | none => none
      | some ss =>
          let st := ss.foldl
            (fun p sb => if sb ∈ p.1 then p else (p.1 ++ [sb], p.2 ++ [sb]))
            (bbs, ([] : List Nat))
          walkBlocks s fuel st.1 (wl.dropLast ++ st.2)

/-- `Function.get_blocks`: discover the blocks reachable from `entry`
(worklist walk over successor edges), then `bbs.remove(self.entry)`
(entry is always present), remove `epiloog` when discovered, and
re-insert entry at position 0 and epilog at the end. -/
def getBlocks (s : IR) (entry epilog : Nat) (fuel : Nat) : Option (List Nat) :=
  match walkBlocks s fuel [entry] [entry] with
  | none => none
  | some bbs =>
      let b1 := bbs.erase entry
      let b2 := if epilog ∈ b1 then b1.erase epilog else b1
      some (entry :: (b2 ++ [epilog]))

theorem getLast?_cons_append_singleton (x y : Nat) (l : List Nat) :
    (x :: (l ++ [y])).getLast? = some y := by
  have h1 : x :: (l ++ [y]) = (x :: l) ++ [y] := rfl
  rw [h1]
  exact List.getLast?_concat _

/-- C5: whenever `get_blocks` completes, the returned block list starts
with the entry block and ends with the epilog block.  This holds for
every object graph, hence in particular after any sequence of add-block
and remove-block operations (which only rebind block-to-function links
and invalidate the cache this function recomputes). -/
theorem get_blocks_entry_first_epilog_last (s : IR) (entry epilog fuel : Nat)
    (l : List Nat) (hr : getBlocks s entry epilog fuel = some l) :
    l.head? = some entry ∧ l.getLast? = some epilog := by
  unfold getBlocks at hr
  split at hr
  · exact Option.noConfusion hr
  · injection hr with hr
    rw [← hr]
    exact ⟨rfl, getLast?_cons_append_singleton _ _ _⟩

/-- A two-block function: entry block 0 (empty, with the synthetic
entry-to-epilog extra successor) and epilog block 1 holding the
sentinel Terminator (identity 10). -/
def c5state : IR :=
  { initIR with
    kind := Function.update initIR.kind 10 IKind.termK
    blockInstrs := Function.update initIR.blockInstrs 1 [10]
    extraSuccs := Function.update initIR.extraSuccs 0 [1] }

theorem get_blocks_entry_first_epilog_last_witness :
    ((getBlocks c5state 0 1 4).getD []).head? = some 0 ∧
    ((getBlocks c5state 0 1 4).getD []).getLast? = some 1 :=
  get_blocks_entry_first_epilog_last c5state 0 1 4 ((getBlocks c5state 0 1 4).getD [])
    (by decide)

/-- `Instruction.dominates(other)`.  `bdom` is the block-level strict
dominance answer of the external CFG-analysis collaborator
(`cfg_info.strictly_dominates`), taken as a parameter; the recursion in
the Phi case is bounded by explicit fuel.  In order: Parameters and
global Variables dominate unconditionally; a detached instruction fails
the `self.block is not None` assert; for a Phi `other` the first
incoming entry whose value is `self` redirects the query to the last
instruction of that predecessor block (failing on an empty block or when
no incoming value is `self`); instructions in one block compare their
positions (`list.index`, failing when absent); otherwise the collaborator
answers on the two blocks (a block-less `other` fails). -/
def dominates (s : IR) (bdom : Nat → Nat → Bool) : Nat → Nat → Nat → Option Bool
  | 0, _, _ => none
  | fuel + 1, a, b =>
    if s.kind a = IKind.paramK ∨ s.kind a = IKind.globalK then some true
    else
      match s.parent a with
      | none => none
      | some ba =>
        if s.kind b = IKind.phiK then
          match (s.inputs b).find? (fun e => e.2 == a) with
          | some e =>
              match (s.blockInstrs e.1).getLast? with
              | some li => dominates s bdom fuel a li
              | none => none
          | none => none
        else
          match s.parent b with
          | none => none
          | some bb =>
              if ba = bb then
                if a ∈ s.blockInstrs ba ∧ b ∈ s.blockInstrs ba then
                  some (decide ((s.blockInstrs ba).indexOf a < (s.blockInstrs ba).indexOf b))
                else none
              else some (bdom ba bb)

/-- C4: the instruction-level dominance rules, exactly as implemented:
a Parameter or global Variable dominates every instruction
unconditionally; when the queried `other` is a Phi, the query reduces to
whether `self` dominates the last instruction of the predecessor block
whose incoming value (first match) is `self`, and fails when `self` is
not a recorded incoming value; two instructions of one block compare
strict positions; otherwise the CFG-analysis collaborator answers
block-level strict dominance. -/
theorem dominates_rules (s : IR) (bdom : Nat → Nat → Bool) (fuel a b : Nat) :
    ((s.kind a = IKind.paramK ∨ s.kind a = IKind.globalK) →
      dominates s bdom (fuel + 1) a b = some true) ∧
    (¬(s.kind a = IKind.paramK ∨ s.kind a = IKind.globalK) → ∀ ba,
      s.parent a = some ba → s.kind b = IKind.phiK →
      ((∀ e, (s.inputs b).find? (fun e => e.2 == a) = some e →
          ∀ li, (s.blockInstrs e.1).getLast? = some li →
            dominates s bdom (fuel + 1) a b = dominates s bdom fuel a li) ∧
        ((s.inputs b).find? (fun e => e.2 == a) = none →
          dominates s bdom (fuel + 1) a b = none))) ∧
    (¬(s.kind a = IKind.paramK ∨ s.kind a = IKind.globalK) → ∀ ba,
      s.parent a = some ba → s.kind b ≠ IKind.phiK → s.parent b = some ba →
      a ∈ s.blockInstrs ba → b ∈ s.blockInstrs ba →
      dominates s bdom (fuel + 1) a b =
        some (decide ((s.blockInstrs ba).indexOf a < (s.blockInstrs ba).indexOf b))) ∧
    (¬(s.kind a = IKind.paramK ∨ s.kind a = IKind.globalK) → ∀ ba bb,
      s.parent a = some ba → s.kind b ≠ IKind.phiK → s.parent b = some bb →
      ba ≠ bb → dominates s bdom (fuel + 1) a b = some (bdom ba bb)) := by
  refine ⟨?_, ?_, ?_, ?_⟩
  · intro hk
    conv_lhs => unfold dominates
    rw [if_pos hk]
  · intro hk ba hpa hphi
    constructor
    · intro e hfind li hlast
      conv_lhs => unfold dominates
      rw [if_neg hk]
      simp only [hpa]
      rw [if_pos hphi]
      simp only [hfind, hlast]
    · intro hfind
      conv_lhs => unfold dominates
      rw [if_neg hk]
      simp only [hpa]
      rw [if_pos hphi]
      simp only [hfind]
  · intro hk ba hpa hphi hpb hma hmb
    conv_lhs => unfold dominates
    rw [if_neg hk]
    simp only [hpa]
    rw [if_neg hphi]
    simp only [hpb]
    rw [if_pos (And.intro hma hmb)]
    rw [if_pos trivial]
  · intro hk ba bb hpa hphi hpb hne
    conv_lhs => unfold dominates
    rw [if_neg hk]
    simp only [hpa]
    rw [if_neg hphi]
    simp only [hpb]
    rw [if_neg hne]

/-- A configuration exercising all four dominance rules: 20 is a
Parameter; 21 and 24 are plain values in block 30 (in that order); 22 is
a Phi in block 32 with incoming value 21 from block 31; 23 is the
terminator of block 31. -/
def c4state : IR :=
  { initIR with
    kind := fun i =>
      if i = 20 then IKind.paramK
      else if i = 22 then IKind.phiK
      else if i = 23 then IKind.termK
      else IKind.valueK
    parent := fun i =>
      if i = 21 then some 30
      else if i = 24 then some 30
      else if i = 23 then some 31
      else if i = 22 then some 32
      else none
    blockInstrs := fun b =>
      if b = 30 then [21, 24]
      else if b = 31 then [23]
      else if b = 32 then [22]
      else []
    inputs := fun i => if i = 22 then [(31, 21)] else [] }

theorem dominates_rules_witness :
    dominates c4state (fun _ _ => true) 6 20 99 = some true ∧
    dominates c4state (fun _ _ => true) 6 21 22 =
      dominates c4state (fun _ _ => true) 5 21 23 ∧
    dominates c4state (fun _ _ => true) 6 21 24 =
      some (decide ((c4state.blockInstrs 30).indexOf 21 < (c4state.blockInstrs 30).indexOf 24)) ∧
    dominates c4state (fun _ _ => true) 6 21 23 = some ((fun _ _ => true) 30 31) :=
  ⟨(dominates_rules c4state (fun _ _ => true) 5 20 99).1 (Or.inl (by decide)),
   ((dominates_rules c4state (fun _ _ => true) 5 21 22).2.1 (by decide) 30 (by decide)
       (by decide)).1 (31, 21) (by decide) 23 (by decide),
   (dominates_rules c4state (fun _ _ => true) 5 21 24).2.2.1 (by decide) 30 (by decide)
     (by decide) (by decide) (by decide) (by decide),
   (dominates_rules c4state (fun _ _ => true) 5 21 23).2.2.2 (by decide) 30 31 (by decide)
     (by decide) (by decide) (by decide)⟩

/-- `FastList`: list drop-in with a cached index map (`_items` and
`_index_map`). -/
structure FastList where
  items : List Nat
  cache : List (Nat × Nat)

/-- A freshly constructed `FastList`. -/
def flEmpty : FastList := { items := [], cache := [] }

/-- Python `list.insert(pos, x)` for a non-negative position: clamps the
position to the list length. -/
def pyInsert (pos x : Nat) (l : List Nat) : List Nat :=
  l.take pos ++ x :: l.drop pos

/-- `FastList.append`: `self._index_map.clear(); self._items.append(i)`. -/
def flAppend (x : Nat) (fl : FastList) : FastList :=
  { items := fl.items ++ [x], cache := [] }

/-- `FastList.insert`: `self._index_map.clear(); self._items.insert(pos, i)`. -/
def flInsert (pos x : Nat) (fl : FastList) : FastList :=
  { items := pyInsert pos x fl.items, cache := [] }

/-- `FastList.remove`: `self._index_map.clear(); self._items.remove(i)`
(`list.remove` deletes the first occurrence and raises `ValueError`
when the item is absent). -/
def flRemove (x : Nat) (fl : FastList) : Option FastList :=
  if x ∈ fl.items then some { items := fl.items.erase x, cache := [] } else none

/-- `FastList.index`: consult `_index_map`; on a miss compute
`self._items.index(i)` (first occurrence; `ValueError` when absent) and
cache the answer. -/
def flIndex (x : Nat) (fl : FastList) : Option (Nat × FastList) :=
  match alookup fl.cache x with
  | some n => some (n, fl)
  | none =>
      if x ∈ fl.items then
        some (fl.items.indexOf x,
          { fl with cache := aset fl.cache x (fl.items.indexOf x) })
      else none

/-- `FastList.first_to_occur(i1, i2)`: scan `_items` in order and return
whichever of the two items is encountered first; `None` when neither
occurs. -/
def firstToOccur (a b : Nat) (fl : FastList) : Option Nat :=
  fl.items.find? (fun i => i == a || i == b)

/-- The `FastList` operations of the claim: the structural mutations
plus the (cache-filling) index query. -/
inductive FLOp
  | appendIt (x : Nat)
  | insertIt (pos x : Nat)
  | removeIt (x : Nat)
  | indexIt (x : Nat)

/-- Run one `FastList` operation. -/
def stepFL : FLOp → FastList → Option FastList
  | FLOp.appendIt x, fl => some (flAppend x fl)
  | FLOp.insertIt pos x, fl => some (flInsert pos x fl)
  | FLOp.removeIt x, fl => flRemove x fl
  | FLOp.indexIt x, fl => (flIndex x fl).map Prod.snd

/-- Run a sequence of `FastList` operations. -/
def runFL : List FLOp → FastList → Option FastList
  | [], fl => some fl
  | op :: ops, fl =>
    match stepFL op fl with
    | some fl1 => runFL ops fl1
    | none => none

/-- Cache correctness: every cached entry records the current position
of a present item. -/
def CacheOK (fl : FastList) : Prop :=
  ∀ x n, alookup fl.cache x = some n → x ∈ fl.items ∧ n = fl.items.indexOf x

theorem alookup_aset_eq {κ : Type} [DecidableEq κ] :
    ∀ (l : List (κ × Nat)) (k k' : κ) (v : Nat),
      alookup (aset l k v) k' = if k = k' then some v else alookup l k'
  | [], k, k', v => by
      unfold aset alookup
      by_cases h : k = k'
      · rw [if_pos h, if_pos h]
      · rw [if_neg h, if_neg h]
        rfl
  | e :: l, k, k', v => by
      unfold aset
      by_cases he : e.1 = k
      · rw [if_pos he]
        unfold alookup
        by_cases h : k = k'
        · rw [if_pos h, if_pos h]
        · rw [if_neg h, if_neg h]
          rw [he] at *
          rw [if_neg h]
      · rw [if_neg he]
        unfold alookup
        by_cases h2 : e.1 = k'
        · have h3 : ¬(k = k') := fun hh => he (hh ▸ h2)
          rw [if_pos h2, if_neg h3, if_pos h2]
        · rw [if_neg h2, if_neg h2]
          exact alookup_aset_eq l k k' v

theorem cacheOK_empty_cache (l : List Nat) : CacheOK { items := l, cache := [] } :=
  fun x n h => Option.noConfusion h

theorem stepFL_cacheOK {op : FLOp} {fl fl' : FastList} (h : CacheOK fl)
    (hr : stepFL op fl = some fl') : CacheOK fl' := by
  cases op with
  | appendIt x =>
      injection hr with hr
      rw [← hr]
      exact cacheOK_empty_cache _
  | insertIt pos x =>
      injection hr with hr
      rw [← hr]
      exact cacheOK_empty_cache _
  | removeIt x =>
      replace hr : flRemove x fl = some fl' := hr
      unfold flRemove at hr
      split at hr
      · injection hr with hr
        rw [← hr]
        exact cacheOK_empty_cache _
      · exact Option.noConfusion hr
  | indexIt x =>
      replace hr : (flIndex x fl).map Prod.snd = some fl' := hr
      unfold flIndex at hr
      split at hr
      · simp only [Option.map_some'] at hr
        injection hr with hr
        rwa [← hr]
      · split at hr
        · rename_i hmem
          simp only [Option.map_some'] at hr
          injection hr with hr
          rw [← hr]
          intro y n hy
          rw [alookup_aset_eq] at hy
          split at hy
          · rename_i hxy
            injection hy with hy
            rw [← hxy]
            exact ⟨hmem, hy.symm⟩
          · exact h y n hy
        · exact Option.noConfusion hr

theorem runFL_cacheOK : ∀ (ops : List FLOp) (fl fl' : FastList), CacheOK fl →
    runFL ops fl = some fl' → CacheOK fl'
  | [], fl, fl', h, hr => by
      injection hr with hr
      rwa [← hr]
  | op :: ops, fl, fl', h, hr => by
      unfold runFL at hr
      cases hst : stepFL op fl with
      | none => rw [hst] at hr; exact Option.noConfusion hr
      | some fl1 =>
          rw [hst] at hr
          exact runFL_cacheOK ops fl1 fl' (stepFL_cacheOK h hst) hr

theorem find?_first {p : Nat → Bool} :
    ∀ {l : List Nat} {c : Nat}, l.find? p = some c →
      ∀ d ∈ l, p d = true → l.indexOf c ≤ l.indexOf d
  | [], c, hf => Option.noConfusion hf
  | e :: t, c, hf => by
      intro d hd hp
      rw [List.find?_cons] at hf
      by_cases hpe : p e = true
      · simp only [hpe] at hf
        injection hf with hf
        rw [← hf]
        simp [List.indexOf_cons_self]
      · have hpe2 : p e = false := Bool.eq_false_iff.mpr hpe
        simp only [hpe2] at hf
        have hce : c ≠ e := by
          intro hh
          rw [hh] at hf
          exact hpe (List.find?_some hf)
        have hde : d ≠ e := by
          intro hh
          rw [hh] at hp
          exact hpe hp
        have hdt : d ∈ t := by
          rcases List.mem_cons.mp hd with hh | hh
          · exact absurd hh hde
          · exact hh
        rw [List.indexOf_cons_ne _ (Ne.symm hce), List.indexOf_cons_ne _ (Ne.symm hde)]
        exact Nat.succ_le_succ (find?_first hf d hdt hp)

/-- C8: for the cached-index ordered collection `FastList`, after any
sequence of append / insert / remove operations (with index queries
interleaved), `index(x)` returns the current position of `x` — the
cache is cleared in full on every structural mutation, so no stale
entry is ever returned — and fails when `x` is absent; and
`first_to_occur(a, b)` returns whichever of `a` and `b` occurs first in
sequence order, returning nothing when neither is present. -/
theorem fastlist_index_and_first_to_occur (ops : List FLOp) (fl fl' : FastList)
    (hok : CacheOK fl) (hr : runFL ops fl = some fl') :
    (∀ x, x ∈ fl'.items → (flIndex x fl').map Prod.fst = some (fl'.items.indexOf x)) ∧
    (∀ x, x ∉ fl'.items → flIndex x fl' = none) ∧
    (∀ a b, firstToOccur a b fl' = none ↔ (a ∉ fl'.items ∧ b ∉ fl'.items)) ∧
    (∀ a b c, firstToOccur a b fl' = some c →
      (c = a ∨ c = b) ∧ c ∈ fl'.items ∧
      ∀ d, d ∈ fl'.items → (d = a ∨ d = b) →
        fl'.items.indexOf c ≤ fl'.items.indexOf d) := by
  have hok2 : CacheOK fl' := runFL_cacheOK ops fl fl' hok hr
  refine ⟨?_, ?_, ?_, ?_⟩
  · intro x hx
    unfold flIndex
    cases hl : alookup fl'.cache x with
    | some n =>
        simp only [Option.map_some']
        rw [(hok2 x n hl).2]
    | none =>
        rw [if_pos hx]
        simp only [Option.map_some']
  · intro x hx
    unfold flIndex
    cases hl : alookup fl'.cache x with
    | some n => exact absurd (hok2 x n hl).1 hx
    | none => rw [if_neg hx]
  · intro a b
    unfold firstToOccur
    rw [List.find?_eq_none]
    constructor
    · intro hall
      constructor
      · intro ha
        exact absurd (by simp) (hall a ha)
      · intro hb
        exact absurd (by simp) (hall b hb)
    · intro hnone x hx
      simp only [Bool.or_eq_true, beq_iff_eq, not_or]
      constructor
      · intro hxa
        rw [hxa] at hx
        exact hnone.1 hx
      · intro hxb
        rw [hxb] at hx
        exact hnone.2 hx
  · intro a b c hf
    replace hf : fl'.items.find? (fun i => i == a || i == b) = some c := hf
    have hpc := List.find?_some hf
    have hmc : c ∈ fl'.items := List.mem_of_find?_eq_some hf
    simp only [Bool.or_eq_true, beq_iff_eq] at hpc
    refine ⟨hpc, hmc, ?_⟩
    intro d hd hdab
    refine find?_first hf d hd ?_
    simp only [Bool.or_eq_true, beq_iff_eq]
    exact hdab

/-- A sample `FastList` history: append 5 and 7, insert 9 at position 1,
remove 5, then query the index of 7 (filling the cache). -/
def c8ops : List FLOp :=
  [FLOp.appendIt 5, FLOp.appendIt 7, FLOp.insertIt 1 9, FLOp.removeIt 5, FLOp.indexIt 7]

/-- The `FastList` reached by `c8ops` from the empty collection. -/
def c8res : FastList := (runFL c8ops flEmpty).getD flEmpty

theorem fastlist_index_and_first_to_occur_witness :
    (∀ x, x ∈ c8res.items → (flIndex x c8res).map Prod.fst = some (c8res.items.indexOf x)) ∧
    (∀ x, x ∉ c8res.items → flIndex x c8res = none) ∧
    (∀ a b, firstToOccur a b c8res = none ↔ (a ∉ c8res.items ∧ b ∉ c8res.items)) ∧
    (∀ a b c, firstToOccur a b c8res = some c →
      (c = a ∨ c = b) ∧ c ∈ c8res.items ∧
      ∀ d, d ∈ c8res.items → (d = a ∨ d = b) →
        c8res.items.indexOf c ≤ c8res.items.indexOf d) :=
  fastlist_index_and_first_to_occur c8ops flEmpty c8res
    (fun x n h => Option.noConfusion h) rfl

/-- The per-Function naming state: the keys of `defined_names` (the
mapped entities play no role in name uniquing) and `unique_counter`. -/
structure NameState where
  defined : List String
  counter : Nat

/-- One candidate renaming: `'{}_{}'.format(orig_name, self.unique_counter)`. -/
def mkName (orig : String) (k : Nat) : String := orig ++ "_" ++ toString k

/-- `Function.make_unique_name(dut)`: while the current name is in
`defined_names`, rename to `orig_counter` and bump the counter; then
register the final name.  The loop is bounded by explicit fuel (one unit
per renaming attempt). -/
def makeUniqueName : Nat → String → String → NameState → Option (String × NameState)
  | 0, _, cur, st =>
      if cur ∈ st.defined then none
      else some (cur, { st with defined := st.defined ++ [cur] })
  | f + 1, orig, cur, st =>
      if cur ∈ st.defined then
        makeUniqueName f orig (mkName orig st.counter) { st with counter := st.counter + 1 }
      else some (cur, { st with defined := st.defined ++ [cur] })

/-- The Function-level operations that touch (or conspicuously do not
touch) the naming state: `add_block` uniquifies the block name;
`remove_block` only clears the block\'s function pointer and the block
cache — it does not unregister anything; `add_instruction` uniquifies
the name of a Value instruction and leaves the table alone for
non-Value instructions. -/
inductive NOp
  | addBlock (fuel : Nat) (name : String)
  | removeBlock
  | addValueInstr (fuel : Nat) (name : String)
  | addPlainInstr

/-- Run one naming-relevant operation. -/
def stepN : NOp → NameState → Option NameState
  | NOp.addBlock fuel name, st => (makeUniqueName fuel name name st).map Prod.snd
  | NOp.removeBlock, st => some st
  | NOp.addValueInstr fuel name, st => (makeUniqueName fuel name name st).map Prod.snd
  | NOp.addPlainInstr, st => some st

/-- Run a sequence of naming-relevant operations. -/
def runN : List NOp → NameState → Option NameState
  | [], st => some st
  | op :: ops, st =>
    match stepN op st with
    | some st1 => runN ops st1
    | none => none

theorem makeUniqueName_fresh :
    ∀ (fuel : Nat) (orig cur : String) (st : NameState) (n : String) (st' : NameState),
      makeUniqueName fuel orig cur st = some (n, st') →
      n ∉ st.defined ∧ st'.defined = st.defined ++ [n]
  | 0, orig, cur, st, n, st', h => by
      unfold makeUniqueName at h
      split at h
      · exact Option.noConfusion h
      · rename_i hmem
        injection h with h
        injection h with h1 h2
        rw [← h2, ← h1]
        exact ⟨hmem, rfl⟩
  | f + 1, orig, cur, st, n, st', h => by
      unfold makeUniqueName at h
      split at h
      · exact makeUniqueName_fresh f orig (mkName orig st.counter)
          { st with counter := st.counter + 1 } n st' h
      · rename_i hmem
        injection h with h
        injection h with h1 h2
        rw [← h2, ← h1]
        exact ⟨hmem, rfl⟩

theorem stepN_mono {op : NOp} {st st' : NameState} (hr : stepN op st = some st') :
    ∀ m ∈ st.defined, m ∈ st'.defined := by
  cases op with
  | addBlock fuel name =>
      cases hm : makeUniqueName fuel name name st with
      | none => rw [stepN, hm] at hr; exact Option.noConfusion hr
      | some p =>
          rw [stepN, hm] at hr
          simp only [Option.map_some'] at hr
          injection hr with hr
          intro m hmem
          rw [← hr]
          rw [(makeUniqueName_fresh fuel name name st p.1 p.2 (by rw [hm])).2]
          exact List.mem_append_left _ hmem
  | removeBlock =>
      injection hr with hr
      rw [← hr]
      exact fun m hm => hm
  | addValueInstr fuel name =>
      cases hm : makeUniqueName fuel name name st with
      | none => rw [stepN, hm] at hr; exact Option.noConfusion hr
      | some p =>
          rw [stepN, hm] at hr
          simp only [Option.map_some'] at hr
          injection hr with hr
          intro m hmem
          rw [← hr]
          rw [(makeUniqueName_fresh fuel name name st p.1 p.2 (by rw [hm])).2]
          exact List.mem_append_left _ hmem
  | addPlainInstr =>
      injection hr with hr
      rw [← hr]
      exact fun m hm => hm

theorem runN_mono : ∀ (ops : List NOp) (st st' : NameState),
    runN ops st = some st' → ∀ m ∈ st.defined, m ∈ st'.defined
  | [], st, st', hr => by
      injection hr with hr
      rw [← hr]
      exact fun m hm => hm
  | op :: ops, st, st', hr => by
      unfold runN at hr
      cases hst : stepN op st with
      | none => rw [hst] at hr; exact Option.noConfusion hr
      | some st1 =>
          rw [hst] at hr
          intro m hm
          exact runN_mono ops st1 st' hr m (stepN_mono hst m hm)

/-- C10: the naming table follows the permanent-reservation policy:
`remove_block` leaves the naming state untouched (it never unregisters
a name), names only accumulate across add-block / remove-block /
add-instruction sequences, and uniquifying an entity whose proposed name
is already registered — even if its original owner was removed —
produces a fresh disambiguated name distinct from the proposed name and
from every registered name, which is then registered. -/
theorem name_permanent_reservation (ops : List NOp) (st st' : NameState)
    (hr : runN ops st = some st') (m : String) (hm : m ∈ st.defined) :
    stepN NOp.removeBlock st' = some st' ∧
    m ∈ st'.defined ∧
    (∀ fuel n st2, makeUniqueName fuel m m st' = some (n, st2) →
      n ≠ m ∧ n ∉ st'.defined ∧ n ∈ st2.defined) := by
  have hmono : m ∈ st'.defined := runN_mono ops st st' hr m hm
  refine ⟨rfl, hmono, ?_⟩
  intro fuel n st2 hmk
  have hf := makeUniqueName_fresh fuel m m st' n st2 hmk
  refine ⟨?_, hf.1, ?_⟩
  · intro hnm
    rw [hnm] at hf
    exact hf.1 hmono
  · rw [hf.2]
    exact List.mem_append_right _ (List.mem_singleton.mpr rfl)

/-- A function whose table already holds `entry`; adding a block
proposed as `entry` and then removing a block. -/
def c10ops : List NOp := [NOp.addBlock 3 "entry", NOp.removeBlock]

/-- The starting naming state of `c10ops`. -/
def c10st : NameState := { defined := ["entry"], counter := 0 }

/-- The naming state reached by `c10ops`. -/
def c10res : NameState := (runN c10ops c10st).getD c10st

theorem name_permanent_reservation_witness :
    stepN NOp.removeBlock c10res = some c10res ∧
    "entry" ∈ c10res.defined ∧
    (∀ fuel n st2, makeUniqueName fuel "entry" "entry" c10res = some (n, st2) →
      n ≠ "entry" ∧ n ∉ c10res.defined ∧ n ∈ st2.defined) :=
  name_permanent_reservation c10ops c10st c10res rfl "entry" (by decide)

end PpciIR
